import Mathlib

/-! Shallow embedding of the chapter-to-transcript alignment engine of
`map_chapters.py`: tokenizer/normalizer, fuzzy matcher (`find_chapter_start`),
chapter sequencer (the loop of `main`), and boundary finalizer.

Scores are modelled in `ℚ`. In the source they are IEEE doubles, but every
match count is a half-integer between 0 and 15 and every window length `n`
is at most 15, so distinct rational scores differ by at least `1/30`:
far above double rounding error, hence every comparison performed by the
source (`score > best_score`, `score >= 0.5`) agrees with the rational one. -/

namespace MapChapters

/-- Minimum chapter text length (characters) to consider a real chapter. -/
def MIN_CHAPTER_TEXT_LEN : Nat := 200

/-- How many words from the start of each chapter to use for matching. -/
def MATCH_WINDOW : Nat := 15

/-- Minimum ratio of matched words to consider a valid match. -/
def MIN_MATCH_RATIO : ℚ := 1 / 2

/-- Characters kept by normalization: exactly the class `[a-z0-9]`, i.e.
code points 97-122 (`a`-`z`) and 48-57 (`0`-`9`). -/
def isKeep (c : Char) : Bool :=
  (97 ≤ c.toNat && c.toNat ≤ 122) || (48 ≤ c.toNat && c.toNat ≤ 57)

/-- `normalize(word)`: lowercase, then strip every character outside
`[a-z0-9]` (the `re.sub` of the source). -/
def normalize (w : String) : String :=
  ((w.data.map Char.toLower).filter isKeep).asString

/-- `extract_words(text)`: split on whitespace, normalize each piece, keep
only the pieces whose normalized form is non-empty. -/
def extract_words (text : String) : List String :=
  ((text.data.splitOnP Char.isWhitespace).map (fun piece => normalize piece.asString)).filter
    (fun s => !s.isEmpty)

/-- One transcribed word `[word, start, end]`: raw text plus times. -/
structure TWord where
  w : String
  start : ℚ
  stop : ℚ
deriving Inhabited, DecidableEq

/-- Empty token, the out-of-range default for list reads (never reached for
the indices the matcher actually uses). -/
def emptyTok : String := ""

/-- Credit of one aligned token pair: `1` on exact equality; `1/2` when both
tokens have length `> 2` and one starts with the first three characters of
the other; else `0`. -/
def pairScore (tw cw : String) : ℚ :=
  if tw = cw then 1
  else if 2 < tw.length ∧ 2 < cw.length ∧
      (tw.startsWith (cw.take 3) ∨ cw.startsWith (tw.take 3)) then 1 / 2
  else 0

/-- Score the inner loop assigns to candidate position `i`: total credit of
the `n` aligned pairs, divided by `n`. -/
def windowScore (chapter_words : List String) (tws : List TWord) (n i : Nat) : ℚ :=
  (∑ j ∈ Finset.range n,
      pairScore (normalize (tws.getD (i + j) default).w) (chapter_words.getD j emptyTok))
    / (n : ℚ)

/-- The candidate start positions the matcher scans: the integers of
`range(search_from, search_end)`, as naturals (empty when the range is). -/
def scanPositions (search_from : Nat) (search_end : ℤ) : List Nat :=
  (List.range (search_end - (search_from : ℤ)).toNat).map (fun k => search_from + k)

/-- Exclusive end of the scan: `len(transcribed_words) - n`, capped at
`search_from + search_limit` when a limit is supplied. -/
def effEnd (tws : List TWord) (search_from : Nat) (search_limit : Option ℤ) (n : Nat) : ℤ :=
  match search_limit with
  | none => (tws.length : ℤ) - (n : ℤ)
  | some l => min ((tws.length : ℤ) - (n : ℤ)) ((search_from : ℤ) + l)

/-- One step of the best-tracking loop: update only on strict improvement. -/
def stepBest (f : Nat → ℚ) (best : ℤ × ℚ) (i : Nat) : ℤ × ℚ :=
  if best.2 < f i then ((i : ℤ), f i) else best

/-- `find_chapter_start`: best matching position for `chapter_words` in the
transcribed word stream, as `(best_idx, best_score)` starting from
`(-1, 0)`; immediately `(-1, 0)` when the window `n` is under 3. -/
def find_chapter_start (chapter_words : List String) (tws : List TWord)
    (search_from : Nat) (search_limit : Option ℤ) : ℤ × ℚ :=
  let n := min chapter_words.length MATCH_WINDOW
  if n < 3 then (-1, 0)
  else
    (scanPositions search_from (effEnd tws search_from search_limit n)).foldl
      (stepBest (windowScore chapter_words tws n)) (-1, 0)

/-- A chapter candidate from the EPUB: title and full text. -/
structure Chapter where
  title : String
  text : String
deriving Inhabited, DecidableEq

/-- A mapped chapter before finalization: start fields only. -/
structure MappedChapter where
  title : String
  start_time : ℚ
  start_word_index : Nat
deriving Inhabited, DecidableEq

/-- Round half to even, the tie rule of Python `round`. -/
def roundHalfEven (q : ℚ) : ℤ :=
  if q - ⌊q⌋ < 1 / 2 then ⌊q⌋
  else if 1 / 2 < q - ⌊q⌋ then ⌊q⌋ + 1
  else if ⌊q⌋ % 2 = 0 then ⌊q⌋ else ⌊q⌋ + 1

/-- `round(x, 3)`: round to three decimal places. -/
def round3 (x : ℚ) : ℚ :=
  (roundHalfEven (x * 1000) : ℚ) / 1000

/-- The per-chapter search limit: `max(len(words) - search_from, 50000)`. -/
def searchLimitFor (tws : List TWord) (search_from : Nat) : ℤ :=
  max ((tws.length : ℤ) - (search_from : ℤ)) 50000

/-- One iteration of the sequencer loop over `(mapped_chapters, search_from)`:
skip chapters with fewer than 3 tokens, run the matcher from the current
floor, on acceptance append a record and advance the floor to `word_idx + 1`,
otherwise leave the state untouched. -/
def alignStep (tws : List TWord) (st : List MappedChapter × Nat) (ch : Chapter) :
    List MappedChapter × Nat :=
  let chapter_words := extract_words ch.text
  if chapter_words.length < 3 then st
  else
    let r := find_chapter_start chapter_words tws st.2 (some (searchLimitFor tws st.2))
    if 0 ≤ r.1 ∧ MIN_MATCH_RATIO ≤ r.2 then
      (st.1 ++ [⟨ch.title, round3 (tws.getD r.1.toNat default).start, r.1.toNat⟩],
       r.1.toNat + 1)
    else st

/-- The sequencer: drop chapters shorter than `MIN_CHAPTER_TEXT_LEN`
characters, then fold the alignment step from the empty list and floor 0.
Returns the mapped chapters together with the final floor. -/
def alignChapters (chapters : List Chapter) (tws : List TWord) :
    List MappedChapter × Nat :=
  (chapters.filter (fun ch => MIN_CHAPTER_TEXT_LEN ≤ ch.text.length)).foldl
    (alignStep tws) ([], 0)

/-- The final committed chapter record with both boundaries resolved. -/
structure ChapterSpan where
  title : String
  start_time : ℚ
  start_word_index : Nat
  end_time : ℚ
  end_word_index : Nat
deriving Inhabited, DecidableEq

/-- Boundary finalization: every span but the last ends where the next
begins; the last ends at `round(total_duration, 3)` and at the transcript
length. -/
def finalize : List MappedChapter → ℚ → Nat → List ChapterSpan
  | [], _, _ => []
  | [m], total_duration, transcript_len =>
      [⟨m.title, m.start_time, m.start_word_index, round3 total_duration, transcript_len⟩]
  | m :: m2 :: rest, total_duration, transcript_len =>
      ⟨m.title, m.start_time, m.start_word_index, m2.start_time, m2.start_word_index⟩ ::
        finalize (m2 :: rest) total_duration transcript_len

/-! Basic lemmas about the scan range and the per-position score. -/

theorem mem_scanPositions {sf : Nat} {e : ℤ} {i : Nat} :
    i ∈ scanPositions sf e ↔ sf ≤ i ∧ (i : ℤ) < e := by
  simp only [scanPositions, List.mem_map, List.mem_range]
  constructor
  · rintro ⟨k, hk, rfl⟩
    omega
  · rintro ⟨h1, h2⟩
    exact ⟨i - sf, by omega, by omega⟩

theorem scanPositions_sorted (sf : Nat) (e : ℤ) :
    (scanPositions sf e).Pairwise (· < ·) := by
  unfold scanPositions
  exact (List.pairwise_lt_range _).map _ (fun h => by omega)

theorem pairScore_nonneg (tw cw : String) : 0 ≤ pairScore tw cw := by
  unfold pairScore
  split_ifs <;> norm_num

theorem pairScore_le_one (tw cw : String) : pairScore tw cw ≤ 1 := by
  unfold pairScore
  split_ifs <;> norm_num

theorem pairScore_of_eq {tw cw : String} (h : tw = cw) : pairScore tw cw = 1 := by
  unfold pairScore
  rw [if_pos h]

theorem pairScore_of_ne {tw cw : String} (h : tw ≠ cw) : pairScore tw cw ≤ 1 / 2 := by
  unfold pairScore
  split_ifs with h1 h2
  · exact absurd h1 h
  · exact le_refl _
  · norm_num

theorem windowScore_nonneg (cw : List String) (tws : List TWord) (n i : Nat) :
    0 ≤ windowScore cw tws n i := by
  unfold windowScore
  apply div_nonneg
  · exact Finset.sum_nonneg fun j _ => pairScore_nonneg _ _
  · exact Nat.cast_nonneg n

theorem windowScore_le_one (cw : List String) (tws : List TWord) (n i : Nat) :
    windowScore cw tws n i ≤ 1 := by
  unfold windowScore
  rcases Nat.eq_zero_or_pos n with h | h
  · subst h
    simp
  · rw [div_le_one (by exact_mod_cast h)]
    calc ∑ j ∈ Finset.range n,
          pairScore (normalize (tws.getD (i + j) default).w) (cw.getD j emptyTok)
        ≤ ∑ _j ∈ Finset.range n, (1 : ℚ) :=
          Finset.sum_le_sum fun j _ => pairScore_le_one _ _
      _ = (n : ℚ) := by simp

theorem windowScore_eq_one_of_verbatim {cw : List String} {tws : List TWord} {n i : Nat}
    (hn : 0 < n)
    (h : ∀ j < n, normalize (tws.getD (i + j) default).w = cw.getD j emptyTok) :
    windowScore cw tws n i = 1 := by
  unfold windowScore
  rw [div_eq_one_iff_eq (by exact_mod_cast hn.ne')]
  rw [Finset.sum_congr rfl (fun j hj => pairScore_of_eq (h j (Finset.mem_range.mp hj)))]
  simp

theorem windowScore_lt_one_of_not_verbatim {cw : List String} {tws : List TWord} {n i : Nat}
    (hn : 0 < n) (j0 : Nat) (hj0 : j0 < n)
    (hne : normalize (tws.getD (i + j0) default).w ≠ cw.getD j0 emptyTok) :
    windowScore cw tws n i < 1 := by
  unfold windowScore
  rw [div_lt_one (by exact_mod_cast hn)]
  calc ∑ j ∈ Finset.range n,
        pairScore (normalize (tws.getD (i + j) default).w) (cw.getD j emptyTok)
      < ∑ _j ∈ Finset.range n, (1 : ℚ) := by
        refine Finset.sum_lt_sum (fun j _ => pairScore_le_one _ _)
          ⟨j0, Finset.mem_range.mpr hj0, ?_⟩
        have := pairScore_of_ne hne
        linarith
    _ = (n : ℚ) := by simp

/-! Invariants of the best-tracking fold. -/

theorem foldl_stepBest_snd_le (f : Nat → ℚ) (L : List Nat) (b : ℤ × ℚ) :
    b.2 ≤ (L.foldl (stepBest f) b).2 := by
  induction L generalizing b with
  | nil => exact le_refl _
  | cons x L ih =>
    simp only [List.foldl_cons]
    have hb : b.2 ≤ (stepBest f b x).2 := by
      unfold stepBest
      split_ifs with h
      · exact h.le
      · exact le_refl _
    exact le_trans hb (ih _)

theorem foldl_stepBest_ge_score (f : Nat → ℚ) (L : List Nat) (b : ℤ × ℚ) :
    ∀ i ∈ L, f i ≤ (L.foldl (stepBest f) b).2 := by
  induction L generalizing b with
  | nil => intro i hi; cases hi
  | cons x L ih =>
    intro i hi
    simp only [List.foldl_cons]
    rcases List.mem_cons.mp hi with rfl | hi
    · refine le_trans ?_ (foldl_stepBest_snd_le f L (stepBest f b i))
      unfold stepBest
      split_ifs with h
      · exact le_refl _
      · exact le_of_not_lt h
    · exact ih (stepBest f b x) i hi

theorem foldl_stepBest_const (f : Nat → ℚ) (L : List Nat) (b : ℤ × ℚ)
    (h : ∀ i ∈ L, f i ≤ b.2) : L.foldl (stepBest f) b = b := by
  induction L with
  | nil => rfl
  | cons x L ih =>
    simp only [List.foldl_cons]
    rw [show stepBest f b x = b from by
      unfold stepBest
      rw [if_neg (not_lt.mpr (h x (List.mem_cons_self x L)))]]
    exact ih fun i hi => h i (List.mem_cons_of_mem x hi)

theorem foldl_stepBest_cases (f : Nat → ℚ) (L : List Nat) (b : ℤ × ℚ)
    (hs : L.Pairwise (· < ·)) :
    L.foldl (stepBest f) b = b ∨
      ∃ p ∈ L, L.foldl (stepBest f) b = ((p : ℤ), f p) ∧ b.2 < f p ∧
        ∀ q ∈ L, q < p → f q < f p := by
  induction L generalizing b with
  | nil => exact Or.inl rfl
  | cons x L ih =>
    have hsL : L.Pairwise (· < ·) := hs.of_cons
    have hx : ∀ q ∈ L, x < q := fun q hq => (List.pairwise_cons.mp hs).1 q hq
    simp only [List.foldl_cons]
    by_cases hb : b.2 < f x
    · rw [show stepBest f b x = ((x : ℤ), f x) from by unfold stepBest; rw [if_pos hb]]
      rcases ih ((x : ℤ), f x) hsL with h | ⟨p, hp, heq, hlt, hearly⟩
      · right
        refine ⟨x, List.mem_cons_self x L, h, hb, ?_⟩
        intro q hq hqx
        rcases List.mem_cons.mp hq with rfl | hq
        · exact absurd hqx (lt_irrefl q)
        · exact absurd hqx (not_lt.mpr (hx q hq).le)
      · right
        refine ⟨p, List.mem_cons_of_mem x hp, heq, lt_trans hb hlt, ?_⟩
        intro q hq hqp
        rcases List.mem_cons.mp hq with rfl | hq
        · exact hlt
        · exact hearly q hq hqp
    · rw [show stepBest f b x = b from by unfold stepBest; rw [if_neg hb]]
      rcases ih b hsL with h | ⟨p, hp, heq, hlt, hearly⟩
      · exact Or.inl h
      · right
        refine ⟨p, List.mem_cons_of_mem x hp, heq, hlt, ?_⟩
        intro q hq hqp
        rcases List.mem_cons.mp hq with rfl | hq
        · exact lt_of_le_of_lt (le_of_not_lt hb) hlt
        · exact hearly q hq hqp

theorem foldl_stepBest_first_max (f : Nat → ℚ) (L : List Nat) (b : ℤ × ℚ)
    (hs : L.Pairwise (· < ·)) (p : Nat) (hp : p ∈ L)
    (hmax : ∀ q ∈ L, f q ≤ f p)
    (hearly : ∀ q ∈ L, q < p → f q < f p)
    (hgt : b.2 < f p) :
    L.foldl (stepBest f) b = ((p : ℤ), f p) := by
  induction L generalizing b with
  | nil => cases hp
  | cons x L ih =>
    have hsL : L.Pairwise (· < ·) := hs.of_cons
    have hx : ∀ q ∈ L, x < q := fun q hq => (List.pairwise_cons.mp hs).1 q hq
    simp only [List.foldl_cons]
    rcases List.mem_cons.mp hp with rfl | hpL
    · rw [show stepBest f b p = ((p : ℤ), f p) from by unfold stepBest; rw [if_pos hgt]]
      exact foldl_stepBest_const f L _ fun i hi => hmax i (List.mem_cons_of_mem p hi)
    · have hfx : f x < f p := hearly x (List.mem_cons_self x L) (hx p hpL)
      have hb2 : (stepBest f b x).2 < f p := by
        unfold stepBest
        split_ifs
        · exact hfx
        · exact hgt
      exact ih (stepBest f b x) hsL hpL (fun q hq => hmax q (List.mem_cons_of_mem x hq))
        (fun q hq hqp => hearly q (List.mem_cons_of_mem x hq) hqp) hb2

/-! Characterization of `find_chapter_start` through the fold lemmas. -/

theorem find_eq_of_small (cw : List String) (tws : List TWord) (sf : Nat) (sl : Option ℤ)
    (h : min cw.length MATCH_WINDOW < 3) :
    find_chapter_start cw tws sf sl = (-1, 0) := by
  unfold find_chapter_start
  simp [h]

theorem find_eq_fold (cw : List String) (tws : List TWord) (sf : Nat) (sl : Option ℤ)
    (h : ¬ min cw.length MATCH_WINDOW < 3) :
    find_chapter_start cw tws sf sl =
      (scanPositions sf (effEnd tws sf sl (min cw.length MATCH_WINDOW))).foldl
        (stepBest (windowScore cw tws (min cw.length MATCH_WINDOW))) (-1, 0) := by
  unfold find_chapter_start
  simp [h]

theorem find_pos_spec {cw : List String} {tws : List TWord} {sf : Nat} {sl : Option ℤ}
    (h : 0 ≤ (find_chapter_start cw tws sf sl).1) :
    ¬ min cw.length MATCH_WINDOW < 3 ∧
    ∃ p ∈ scanPositions sf (effEnd tws sf sl (min cw.length MATCH_WINDOW)),
      find_chapter_start cw tws sf sl =
        ((p : ℤ), windowScore cw tws (min cw.length MATCH_WINDOW) p) ∧
      0 < windowScore cw tws (min cw.length MATCH_WINDOW) p ∧
      ∀ q ∈ scanPositions sf (effEnd tws sf sl (min cw.length MATCH_WINDOW)),
        q < p → windowScore cw tws (min cw.length MATCH_WINDOW) q
          < windowScore cw tws (min cw.length MATCH_WINDOW) p := by
  by_cases hn : min cw.length MATCH_WINDOW < 3
  · rw [find_eq_of_small cw tws sf sl hn] at h
    simp at h
  · refine ⟨hn, ?_⟩
    rw [find_eq_fold cw tws sf sl hn] at h ⊢
    rcases foldl_stepBest_cases (windowScore cw tws (min cw.length MATCH_WINDOW))
        (scanPositions sf (effEnd tws sf sl (min cw.length MATCH_WINDOW))) (-1, 0)
        (scanPositions_sorted _ _) with heq | ⟨p, hp, heq, hlt, hearly⟩
    · rw [heq] at h
      simp at h
    · exact ⟨p, hp, heq, hlt, hearly⟩

theorem find_snd_ge {cw : List String} {tws : List TWord} {sf : Nat} {sl : Option ℤ}
    (hn : ¬ min cw.length MATCH_WINDOW < 3) :
    ∀ q ∈ scanPositions sf (effEnd tws sf sl (min cw.length MATCH_WINDOW)),
      windowScore cw tws (min cw.length MATCH_WINDOW) q
        ≤ (find_chapter_start cw tws sf sl).2 := by
  intro q hq
  rw [find_eq_fold cw tws sf sl hn]
  exact foldl_stepBest_ge_score _ _ _ q hq

/-- When the target matches verbatim (after normalization) at `p`, a scanned
position at or after the floor and strictly inside the scan range, and at no
scanned position before `p`, the matcher returns `(p, 1)`. -/
theorem find_first_verbatim (cw : List String) (tws : List TWord) (sf p : Nat)
    (hn : 3 ≤ min cw.length MATCH_WINDOW)
    (hsf : sf ≤ p)
    (hfit : p + min cw.length MATCH_WINDOW < tws.length)
    (hverb : ∀ j < min cw.length MATCH_WINDOW,
      normalize (tws.getD (p + j) default).w = cw.getD j emptyTok)
    (hearlier : ∀ q, sf ≤ q → q < p →
      ¬ ∀ j < min cw.length MATCH_WINDOW,
        normalize (tws.getD (q + j) default).w = cw.getD j emptyTok) :
    find_chapter_start cw tws sf none = ((p : ℤ), 1) := by
  have hn3 : ¬ min cw.length MATCH_WINDOW < 3 := not_lt.mpr hn
  have hnpos : 0 < min cw.length MATCH_WINDOW := by omega
  have hfp : windowScore cw tws (min cw.length MATCH_WINDOW) p = 1 :=
    windowScore_eq_one_of_verbatim hnpos hverb
  rw [find_eq_fold cw tws sf none hn3, ← hfp]
  apply foldl_stepBest_first_max _ _ _ (scanPositions_sorted _ _) p
  · apply mem_scanPositions.mpr
    refine ⟨hsf, ?_⟩
    show (p : ℤ) < (tws.length : ℤ) - ((min cw.length MATCH_WINDOW : ℕ) : ℤ)
    omega
  · intro q hq
    rw [hfp]
    exact windowScore_le_one cw tws _ q
  · intro q hq hqp
    rw [hfp]
    obtain ⟨hsfq, -⟩ := mem_scanPositions.mp hq
    have hne := hearlier q hsfq hqp
    push_neg at hne
    obtain ⟨j0, hj0, hne⟩ := hne
    exact windowScore_lt_one_of_not_verbatim hnpos j0 hj0 hne
  · rw [hfp]
    show (0 : ℚ) < 1
    norm_num

/-! Normalization lemmas. -/

theorem toLower_of_isKeep {c : Char} (h : isKeep c = true) : c.toLower = c := by
  unfold isKeep at h
  simp only [Bool.or_eq_true, Bool.and_eq_true, decide_eq_true_eq] at h
  unfold Char.toLower
  rw [if_neg (by omega)]

theorem normalize_data (w : String) :
    (normalize w).data = (w.data.map Char.toLower).filter isKeep := rfl

theorem mem_normalize_isKeep (w : String) :
    ∀ c ∈ (normalize w).data, isKeep c = true := by
  intro c hc
  rw [normalize_data] at hc
  exact (List.mem_filter.mp hc).2

/-! Claim theorems. -/

/-- C8: `normalize` is idempotent — `normalize (normalize w) = normalize w`
for every string `w` — and every character of its output lies in the class
`[a-z0-9]` (so each output is a fixed point of `normalize`). -/
theorem C8_normalize_idempotent (w : String) :
    normalize (normalize w) = normalize w ∧
      ∀ c ∈ (normalize w).data, isKeep c = true := by
  have h1 : ∀ c ∈ (normalize w).data, isKeep c = true := mem_normalize_isKeep w
  refine ⟨?_, h1⟩
  have hdata : (normalize (normalize w)).data = (normalize w).data := by
    rw [normalize_data (normalize w)]
    rw [List.map_congr_left (fun a ha => toLower_of_isKeep (h1 a ha))]
    rw [show (fun a : Char => a) = id from rfl, List.map_id]
    exact List.filter_eq_self.mpr h1
  cases hn : normalize (normalize w)
  cases hm : normalize w
  rw [hn, hm] at hdata
  exact congrArg String.mk hdata

/-- C5: `find_chapter_start` returns `(-1, 0)` exactly when the window is
under 3 tokens, the scan range is empty, or every scanned position scores 0;
and it returns a nonnegative position if and only if the returned score is
strictly positive. (Totality — "never raises" — holds by construction of
the embedding, which is a total function.) -/
theorem C5_no_match_signal (cw : List String) (tws : List TWord) (sf : Nat) (sl : Option ℤ) :
    (find_chapter_start cw tws sf sl = (-1, 0) ↔
      (min cw.length MATCH_WINDOW < 3 ∨
        scanPositions sf (effEnd tws sf sl (min cw.length MATCH_WINDOW)) = [] ∨
        ∀ i ∈ scanPositions sf (effEnd tws sf sl (min cw.length MATCH_WINDOW)),
          windowScore cw tws (min cw.length MATCH_WINDOW) i = 0)) ∧
    (0 ≤ (find_chapter_start cw tws sf sl).1 ↔
      0 < (find_chapter_start cw tws sf sl).2) := by
  by_cases hn : min cw.length MATCH_WINDOW < 3
  · have he := find_eq_of_small cw tws sf sl hn
    refine ⟨⟨fun _ => Or.inl hn, fun _ => he⟩, ?_⟩
    rw [he]
    simp
  · constructor
    · constructor
      · intro h
        refine Or.inr (Or.inr ?_)
        intro i hi
        have h1 := find_snd_ge hn i hi
        rw [h] at h1
        exact le_antisymm h1 (windowScore_nonneg cw tws _ i)
      · intro h
        rcases h with h | h | h
        · exact absurd h hn
        · rw [find_eq_fold cw tws sf sl hn, h]
          rfl
        · rw [find_eq_fold cw tws sf sl hn]
          exact foldl_stepBest_const _ _ _ fun i hi => le_of_eq (h i hi)
    · constructor
      · intro h
        obtain ⟨-, p, -, heq, hpos, -⟩ := find_pos_spec h
        rw [heq]
        exact hpos
      · intro h
        rw [find_eq_fold cw tws sf sl hn] at h ⊢
        rcases foldl_stepBest_cases (windowScore cw tws (min cw.length MATCH_WINDOW))
            (scanPositions sf (effEnd tws sf sl (min cw.length MATCH_WINDOW))) (-1, 0)
            (scanPositions_sorted _ _) with heq | ⟨p, hp, heq, hlt, hearly⟩
        · rw [heq] at h
          simp at h
        · rw [heq]
          show (0 : ℤ) ≤ (p : ℤ)
          exact_mod_cast Nat.zero_le p

/-- C7: when `find_chapter_start` returns a nonnegative position `p`, the
returned score is the score of `p`, every position of the search range
strictly before `p` scores strictly less, and no position of the search
range scores more: the earliest maximum wins ties. -/
theorem C7_earliest_max (cw : List String) (tws : List TWord) (sf : Nat) (sl : Option ℤ)
    (p : ℤ) (s : ℚ) (h : find_chapter_start cw tws sf sl = (p, s)) (hp : 0 ≤ p) :
    s = windowScore cw tws (min cw.length MATCH_WINDOW) p.toNat ∧
    (∀ q, sf ≤ q → (q : ℤ) < p →
      windowScore cw tws (min cw.length MATCH_WINDOW) q < s) ∧
    (∀ q, sf ≤ q → (q : ℤ) < effEnd tws sf sl (min cw.length MATCH_WINDOW) →
      windowScore cw tws (min cw.length MATCH_WINDOW) q ≤ s) := by
  have h0 : 0 ≤ (find_chapter_start cw tws sf sl).1 := by rw [h]; exact hp
  obtain ⟨hn, p', hp', heq, hpos, hearly⟩ := find_pos_spec h0
  rw [h] at heq
  have hpp : p = (p' : ℤ) := congrArg Prod.fst heq
  have hss : s = windowScore cw tws (min cw.length MATCH_WINDOW) p' :=
    congrArg Prod.snd heq
  obtain ⟨hsf', hlt'⟩ := mem_scanPositions.mp hp'
  have htn : p.toNat = p' := by omega
  refine ⟨by rw [htn]; exact hss, ?_, ?_⟩
  · intro q hq hqp
    have hqp' : q < p' := by omega
    have hqmem : q ∈ scanPositions sf (effEnd tws sf sl (min cw.length MATCH_WINDOW)) :=
      mem_scanPositions.mpr ⟨hq, by omega⟩
    rw [hss]
    exact hearly q hqmem hqp'
  · intro q hq hqe
    have hqmem : q ∈ scanPositions sf (effEnd tws sf sl (min cw.length MATCH_WINDOW)) :=
      mem_scanPositions.mpr ⟨hq, hqe⟩
    have := find_snd_ge hn q hqmem
    rw [h] at this
    exact this

/-- C10: a nonnegative returned position `p` satisfies `searchFrom ≤ p` and
`p + n < len(transcript)` — `p` is strictly below `len(transcript) - n`, so
the last position where the window would fit is never returned — and every
transcript index `i + j` read during the scan is within bounds. -/
theorem C10_scan_safety (cw : List String) (tws : List TWord) (sf : Nat) (sl : Option ℤ)
    (p : ℤ) (s : ℚ) (h : find_chapter_start cw tws sf sl = (p, s)) (hp : 0 ≤ p) :
    sf ≤ p.toNat ∧
    p.toNat + min cw.length MATCH_WINDOW < tws.length ∧
    ∀ i ∈ scanPositions sf (effEnd tws sf sl (min cw.length MATCH_WINDOW)),
      ∀ j < min cw.length MATCH_WINDOW, i + j < tws.length := by
  have h0 : 0 ≤ (find_chapter_start cw tws sf sl).1 := by rw [h]; exact hp
  obtain ⟨hn, p', hp', heq, -, -⟩ := find_pos_spec h0
  rw [h] at heq
  have hpp : p = (p' : ℤ) := congrArg Prod.fst heq
  obtain ⟨hsf, hlt⟩ := mem_scanPositions.mp hp'
  have hend : effEnd tws sf sl (min cw.length MATCH_WINDOW)
      ≤ (tws.length : ℤ) - (((min cw.length MATCH_WINDOW) : ℕ) : ℤ) := by
    cases sl with
    | none => exact le_refl _
    | some l => exact min_le_left _ _
  refine ⟨by omega, by omega, ?_⟩
  intro i hi j hj
  obtain ⟨-, hi2⟩ := mem_scanPositions.mp hi
  omega

/-- A concrete transcript used to exercise the matcher. -/
def exTws : List TWord :=
  [⟨"In", 0, 1⟩, ⟨"the", 1, 2⟩, ⟨"beginning", 2, 3⟩,
   ⟨"there", 3, 4⟩, ⟨"was", 4, 5⟩, ⟨"light", 5, 6⟩]

/-- A concrete target matching `exTws` verbatim at position 0. -/
def exTarget : List String := ["in", "the", "beginning"]

/-- The matcher run on the concrete example: verbatim match at position 0. -/
theorem find_exTarget : find_chapter_start exTarget exTws 0 none = ((0 : ℤ), (1 : ℚ)) :=
  find_first_verbatim exTarget exTws 0 0 (by decide) (Nat.le_refl 0) (by decide) (by decide)
    (fun q _ hq => absurd hq (Nat.not_lt_zero q))

theorem C7_earliest_max_witness :
    find_chapter_start exTarget exTws 0 none = ((0 : ℤ), (1 : ℚ)) ∧ (0 : ℤ) ≤ 0 ∧
    (1 : ℚ) = windowScore exTarget exTws (min exTarget.length MATCH_WINDOW) (0 : ℤ).toNat :=
  ⟨find_exTarget, by decide,
    (C7_earliest_max exTarget exTws 0 none 0 1 find_exTarget (by decide)).1⟩

theorem C10_scan_safety_witness :
    find_chapter_start exTarget exTws 0 none = ((0 : ℤ), (1 : ℚ)) ∧ (0 : ℤ) ≤ 0 ∧
    (0 : ℤ).toNat + min exTarget.length MATCH_WINDOW < exTws.length :=
  ⟨find_exTarget, by decide,
    (C10_scan_safety exTarget exTws 0 none 0 1 find_exTarget (by decide)).2.1⟩

/-- A 3-word transcript matching `cex3Target` verbatim at position 0, the
last (and only) position where the 3-token window fits. -/
def cex3Tws : List TWord := [⟨"a", 0, 1⟩, ⟨"b", 1, 2⟩, ⟨"c", 2, 3⟩]

/-- A 3-token target equal to the whole of `cex3Tws` after normalization. -/
def cex3Target : List String := ["a", "b", "c"]

/-- C1 counterexample: the target appears verbatim at position `p = 0`, the
position `len(transcript) - n = 0` where the window exactly fits, with
`searchFrom = 0` and no earlier position; yet `find_chapter_start` returns
`(-1, 0)`, not `(0, 1.0)`: the scan range `range(search_from, len - n)`
excludes its right endpoint. -/
theorem C1_counterexample :
    normalize (cex3Tws.getD 0 default).w = cex3Target.getD 0 emptyTok ∧
    normalize (cex3Tws.getD 1 default).w = cex3Target.getD 1 emptyTok ∧
    normalize (cex3Tws.getD 2 default).w = cex3Target.getD 2 emptyTok ∧
    min cex3Target.length MATCH_WINDOW = 3 ∧
    cex3Tws.length = 3 ∧
    find_chapter_start cex3Target cex3Tws 0 none = (-1, 0) ∧
    find_chapter_start cex3Target cex3Tws 0 none ≠ ((0 : ℤ), (1 : ℚ)) := by
  have hfind : find_chapter_start cex3Target cex3Tws 0 none = (-1, 0) := rfl
  refine ⟨by decide, by decide, by decide, by decide, by decide, hfind, ?_⟩
  intro hc
  rw [hfind] at hc
  exact absurd (congrArg Prod.fst hc) (by decide)

/-- C1 (corrected): a target of at least 3 tokens that appears verbatim
(after normalization) at a position `p` with `searchFrom ≤ p` lying
strictly below `len(transcript) - n`, and at no earlier position at or
after `searchFrom`, makes `find_chapter_start` return `(p, 1.0)`. The
original claim also demanded this at `p = len(transcript) - n`, which the
scan excludes (see the counterexample). -/
theorem C1_exact_match (cw : List String) (tws : List TWord) (sf p : Nat)
    (hn : 3 ≤ cw.length)
    (hsf : sf ≤ p)
    (hfit : p + min cw.length MATCH_WINDOW < tws.length)
    (hverb : ∀ j < min cw.length MATCH_WINDOW,
      normalize (tws.getD (p + j) default).w = cw.getD j emptyTok)
    (hearlier : ∀ q, sf ≤ q → q < p →
      ¬ ∀ j < min cw.length MATCH_WINDOW,
        normalize (tws.getD (q + j) default).w = cw.getD j emptyTok) :
    find_chapter_start cw tws sf none = ((p : ℤ), 1) :=
  find_first_verbatim cw tws sf p (le_min hn (by decide)) hsf hfit hverb hearlier

theorem C1_exact_match_witness :
    3 ≤ exTarget.length ∧ 0 + min exTarget.length MATCH_WINDOW < exTws.length ∧
    find_chapter_start exTarget exTws 0 none = ((0 : ℤ), (1 : ℚ)) :=
  ⟨by decide, by decide,
    C1_exact_match exTarget exTws 0 0 (by decide) (Nat.le_refl 0) (by decide) (by decide)
      (fun q _ hq => absurd hq (Nat.not_lt_zero q))⟩

/-- The generous search limit of the sequencer never caps the scan: with
`search_limit = max(len(transcript) - searchFrom, 50000)` and a floor within
the transcript, the capped end equals the uncapped one. -/
theorem find_limit_irrelevant (cw : List String) (tws : List TWord) (sf : Nat)
    (h : sf ≤ tws.length) :
    find_chapter_start cw tws sf (some (searchLimitFor tws sf)) =
      find_chapter_start cw tws sf none := by
  by_cases hn : min cw.length MATCH_WINDOW < 3
  · rw [find_eq_of_small cw tws sf _ hn, find_eq_of_small cw tws sf none hn]
  · rw [find_eq_fold cw tws sf _ hn, find_eq_fold cw tws sf none hn]
    have he : effEnd tws sf (some (searchLimitFor tws sf)) (min cw.length MATCH_WINDOW)
        = effEnd tws sf none (min cw.length MATCH_WINDOW) := by
      simp only [effEnd, searchLimitFor]
      omega
    rw [he]

/-- C9: the sequencer's computed search limit never constrains the matcher:
`find_chapter_start` with `search_limit = max(len(transcript) - searchFrom,
50000)` returns exactly the same pair as with no limit, for any floor inside
the transcript. -/
theorem C9_limit_vacuous (cw : List String) (tws : List TWord) (sf : Nat)
    (h : sf ≤ tws.length) :
    find_chapter_start cw tws sf (some (searchLimitFor tws sf)) =
      find_chapter_start cw tws sf none :=
  find_limit_irrelevant cw tws sf h

theorem C9_limit_vacuous_witness :
    0 ≤ exTws.length ∧
    find_chapter_start exTarget exTws 0 (some (searchLimitFor exTws 0)) =
      find_chapter_start exTarget exTws 0 none :=
  ⟨Nat.zero_le _, C9_limit_vacuous exTarget exTws 0 (Nat.zero_le _)⟩

/-- C4: for a chapter with at least 3 tokens, the sequencer accepts (appends
exactly one record) if and only if the matcher's position is `≥ 0` and its
score is `≥ MIN_MATCH_RATIO`; the comparison is non-strict, so a score of
exactly `0.5` is accepted and anything strictly below is rejected. -/
theorem C4_threshold (tws : List TWord) (st : List MappedChapter × Nat) (ch : Chapter)
    (h : ¬ (extract_words ch.text).length < 3) :
    (alignStep tws st ch).1.length = st.1.length + 1 ↔
      (0 ≤ (find_chapter_start (extract_words ch.text) tws st.2
            (some (searchLimitFor tws st.2))).1 ∧
        MIN_MATCH_RATIO ≤ (find_chapter_start (extract_words ch.text) tws st.2
            (some (searchLimitFor tws st.2))).2) := by
  simp only [alignStep]
  rw [if_neg h]
  split_ifs with hacc
  · constructor
    · intro _
      exact hacc
    · intro _
      simp
  · constructor
    · intro hl
      simp at hl
    · intro hc
      exact absurd hc hacc

/-- A concrete chapter whose text tokenizes to `exTarget`. -/
def chEx : Chapter := ⟨"t", "In the beginning"⟩

/-- A concrete chapter with fewer than 3 tokens. -/
def chShort : Chapter := ⟨"t", "hi"⟩

theorem C4_threshold_witness :
    ¬ (extract_words chEx.text).length < 3 ∧
    ((alignStep exTws (([], 0) : List MappedChapter × Nat) chEx).1.length
        = (([], 0) : List MappedChapter × Nat).1.length + 1 ↔
      (0 ≤ (find_chapter_start (extract_words chEx.text) exTws 0
            (some (searchLimitFor exTws 0))).1 ∧
        MIN_MATCH_RATIO ≤ (find_chapter_start (extract_words chEx.text) exTws 0
            (some (searchLimitFor exTws 0))).2)) :=
  ⟨by decide, C4_threshold exTws (([], 0) : List MappedChapter × Nat) chEx (by decide)⟩

/-- C6: a rejected chapter (no match, or score below threshold) or a chapter
skipped for having fewer than 3 tokens leaves the sequencer state — both the
floor and the accepted list — exactly unchanged. -/
theorem C6_frame_effect (tws : List TWord) (st : List MappedChapter × Nat) (ch : Chapter) :
    ((extract_words ch.text).length < 3 → alignStep tws st ch = st) ∧
    (((find_chapter_start (extract_words ch.text) tws st.2
          (some (searchLimitFor tws st.2))).1 < 0 ∨
        (find_chapter_start (extract_words ch.text) tws st.2
          (some (searchLimitFor tws st.2))).2 < MIN_MATCH_RATIO) →
      alignStep tws st ch = st) := by
  constructor
  · intro h
    simp only [alignStep]
    rw [if_pos h]
  · intro h
    simp only [alignStep]
    split_ifs with h1 h2
    · rfl
    · rcases h with h | h
      · exact absurd h2.1 (not_le.mpr h)
      · exact absurd h2.2 (not_le.mpr h)
    · rfl

theorem C6_frame_effect_witness :
    (extract_words chShort.text).length < 3 ∧
    alignStep exTws (([], 5) : List MappedChapter × Nat) chShort = ([], 5) :=
  ⟨by decide,
    (C6_frame_effect exTws (([], 5) : List MappedChapter × Nat) chShort).1 (by decide)⟩

/-! Sequencer invariant: accepted indices stay strictly below the floor. -/

theorem alignStep_invariant (tws : List TWord) (st : List MappedChapter × Nat) (ch : Chapter)
    (h1 : st.1.Pairwise (fun a b => a.start_word_index < b.start_word_index))
    (h2 : ∀ m ∈ st.1, m.start_word_index < st.2) :
    (alignStep tws st ch).1.Pairwise (fun a b => a.start_word_index < b.start_word_index) ∧
    ∀ m ∈ (alignStep tws st ch).1, m.start_word_index < (alignStep tws st ch).2 := by
  simp only [alignStep]
  split_ifs with hlen hacc
  · exact ⟨h1, h2⟩
  · have h0 : 0 ≤ (find_chapter_start (extract_words ch.text) tws st.2
        (some (searchLimitFor tws st.2))).1 := hacc.1
    obtain ⟨-, p', hp', heq, -, -⟩ := find_pos_spec h0
    obtain ⟨hsf, -⟩ := mem_scanPositions.mp hp'
    have hr1 : (find_chapter_start (extract_words ch.text) tws st.2
        (some (searchLimitFor tws st.2))).1 = (p' : ℤ) := by rw [heq]
    have hge : st.2 ≤ (find_chapter_start (extract_words ch.text) tws st.2
        (some (searchLimitFor tws st.2))).1.toNat := by omega
    constructor
    · refine List.pairwise_append.mpr ⟨h1, List.pairwise_singleton _ _, ?_⟩
      intro a ha b hb
      rw [List.mem_singleton.mp hb]
      exact lt_of_lt_of_le (h2 a ha) hge
    · intro m hm
      rcases List.mem_append.mp hm with hm | hm
      · exact lt_of_lt_of_le (h2 m hm) (by omega)
      · rw [List.mem_singleton.mp hm]
        exact Nat.lt_succ_self _
  · exact ⟨h1, h2⟩

theorem foldl_alignStep_invariant (tws : List TWord) (chs : List Chapter)
    (st : List MappedChapter × Nat)
    (h1 : st.1.Pairwise (fun a b => a.start_word_index < b.start_word_index))
    (h2 : ∀ m ∈ st.1, m.start_word_index < st.2) :
    (chs.foldl (alignStep tws) st).1.Pairwise
      (fun a b => a.start_word_index < b.start_word_index) ∧
    ∀ m ∈ (chs.foldl (alignStep tws) st).1,
      m.start_word_index < (chs.foldl (alignStep tws) st).2 := by
  induction chs generalizing st with
  | nil => exact ⟨h1, h2⟩
  | cons c cs ih =>
    simp only [List.foldl_cons]
    obtain ⟨g1, g2⟩ := alignStep_invariant tws st c h1 h2
    exact ih (alignStep tws st c) g1 g2

/-- C2: the start word indices of the chapters accepted by the sequencer
strictly increase along the accepted sequence: every accepted match lies at
or after the current floor, and acceptance advances the floor past it. -/
theorem C2_monotone_indices (chapters : List Chapter) (tws : List TWord) :
    (alignChapters chapters tws).1.Chain'
      (fun a b => a.start_word_index < b.start_word_index) := by
  unfold alignChapters
  exact (foldl_alignStep_invariant tws _ ([], 0) List.Pairwise.nil
    (fun m hm => absurd hm (List.not_mem_nil m))).1.chain'

/-! Finalizer lemmas. -/

theorem finalize_length (m : List MappedChapter) (td : ℚ) (tl : Nat) :
    (finalize m td tl).length = m.length := by
  induction m with
  | nil => rfl
  | cons a m ih =>
    cases m with
    | nil => rfl
    | cons b m' =>
      simp only [finalize, List.length_cons] at ih ⊢
      omega

theorem finalize_ne_nil {m : List MappedChapter} (h : m ≠ []) (td : ℚ) (tl : Nat) :
    finalize m td tl ≠ [] := by
  intro hc
  have hl := finalize_length m td tl
  rw [hc] at hl
  exact h (List.length_eq_zero.mp hl.symm)

theorem getLastD_congr {α : Type} {l : List α} (h : l ≠ []) (d e : α) :
    l.getLastD d = l.getLastD e := by
  cases l with
  | nil => exact absurd rfl h
  | cons x l' => rw [List.getLastD_cons, List.getLastD_cons]

theorem finalize_chain (m : List MappedChapter) (td : ℚ) (tl : Nat) :
    (finalize m td tl).Chain'
      (fun a b => a.end_time = b.start_time ∧ a.end_word_index = b.start_word_index) := by
  induction m with
  | nil => exact List.chain'_nil
  | cons a m ih =>
    cases m with
    | nil => exact List.chain'_singleton _
    | cons b m' =>
      rw [show finalize (a :: b :: m') td tl =
          ⟨a.title, a.start_time, a.start_word_index, b.start_time, b.start_word_index⟩ ::
            finalize (b :: m') td tl from rfl]
      refine List.chain'_cons'.mpr ⟨?_, ih⟩
      intro y hy
      cases m' with
      | nil =>
        injection hy with hy
        subst hy
        exact ⟨rfl, rfl⟩
      | cons c m'' =>
        injection hy with hy
        subst hy
        exact ⟨rfl, rfl⟩

theorem finalize_last (m : List MappedChapter) (td : ℚ) (tl : Nat) (h : m ≠ []) :
    ((finalize m td tl).getLastD default).end_time = round3 td ∧
    ((finalize m td tl).getLastD default).end_word_index = tl := by
  induction m with
  | nil => exact absurd rfl h
  | cons a m ih =>
    cases m with
    | nil => exact ⟨rfl, rfl⟩
    | cons b m' =>
      have hih := ih (List.cons_ne_nil b m')
      rw [show finalize (a :: b :: m') td tl =
          ⟨a.title, a.start_time, a.start_word_index, b.start_time, b.start_word_index⟩ ::
            finalize (b :: m') td tl from rfl]
      rw [List.getLastD_cons,
        getLastD_congr (finalize_ne_nil (List.cons_ne_nil b m') td tl) _ default]
      exact hih

/-- C3: for a non-empty list of accepted chapters, finalization yields one
span per chapter; every span except the last ends exactly where the next
begins, in both time and word index; and the last span ends at
`round(total_duration, 3)` and at the transcript length — a contiguous,
non-overlapping partition up to the end of the transcript. -/
theorem C3_finalize_contiguous (m : List MappedChapter) (td : ℚ) (tl : Nat) (h : m ≠ []) :
    (finalize m td tl).length = m.length ∧
    (finalize m td tl).Chain'
      (fun a b => a.end_time = b.start_time ∧ a.end_word_index = b.start_word_index) ∧
    ((finalize m td tl).getLastD default).end_time = round3 td ∧
    ((finalize m td tl).getLastD default).end_word_index = tl :=
  ⟨finalize_length m td tl, finalize_chain m td tl,
    (finalize_last m td tl h).1, (finalize_last m td tl h).2⟩

theorem C3_finalize_contiguous_witness :
    ([⟨"c1", 0, 0⟩] : List MappedChapter) ≠ [] ∧
    ((finalize ([⟨"c1", 0, 0⟩] : List MappedChapter) 1 5).getLastD default).end_word_index = 5 :=
  ⟨List.cons_ne_nil _ _,
    (C3_finalize_contiguous ([⟨"c1", 0, 0⟩] : List MappedChapter) 1 5
      (List.cons_ne_nil _ _)).2.2.2⟩

end MapChapters
